import Mathlib

/-!
Verification of the spin-spin correlation routines of tlibs2's magnon
dynamics module (`tlibs2/libs/magdyn/correlation.h`):
`CalcCorrelationsFromHamiltonian` and `CalcIntensities`.

The C++ code is generic over a complex scalar type `t_cplx`; we embed it
with complex numbers whose real and imaginary parts are rationals, so that
all definitions are executable.  Transcendental library functions
(`std::sqrt`, `std::exp`, the Bose factor, the expression parser) and the
helper routines of tlibs2 that are not part of the examined translation
unit are carried as explicit fields of the model state and are documented
at their definition sites.
-/

set_option maxHeartbeats 1000000
set_option linter.unnecessarySeqFocus false

/-- Complex scalars with rational components, embedding `t_cplx`. -/
structure Cplx where
  re : ℚ
  im : ℚ
deriving DecidableEq, Repr

namespace Cplx

/-- Embed a real (`t_real`) scalar into `Cplx`. -/
def ofRat (q : ℚ) : Cplx := ⟨q, 0⟩

/-- The imaginary unit, embedding `s_imag`. -/
def imagU : Cplx := ⟨0, 1⟩

instance : Zero Cplx := ⟨⟨0, 0⟩⟩
instance : One Cplx := ⟨⟨1, 0⟩⟩
instance : Add Cplx := ⟨fun a b => ⟨a.re + b.re, a.im + b.im⟩⟩
instance : Neg Cplx := ⟨fun a => ⟨-a.re, -a.im⟩⟩
instance : Mul Cplx := ⟨fun a b => ⟨a.re * b.re - a.im * b.im, a.re * b.im + a.im * b.re⟩⟩
instance : Inhabited Cplx := ⟨0⟩

@[simp] lemma zero_re : (0 : Cplx).re = 0 := rfl
@[simp] lemma zero_im : (0 : Cplx).im = 0 := rfl
@[simp] lemma one_re : (1 : Cplx).re = 1 := rfl
@[simp] lemma one_im : (1 : Cplx).im = 0 := rfl
@[simp] lemma add_re (a b : Cplx) : (a + b).re = a.re + b.re := rfl
@[simp] lemma add_im (a b : Cplx) : (a + b).im = a.im + b.im := rfl
@[simp] lemma neg_re (a : Cplx) : (-a).re = -a.re := rfl
@[simp] lemma neg_im (a : Cplx) : (-a).im = -a.im := rfl
@[simp] lemma mul_re (a b : Cplx) : (a * b).re = a.re * b.re - a.im * b.im := rfl
@[simp] lemma mul_im (a b : Cplx) : (a * b).im = a.re * b.im + a.im * b.re := rfl
@[simp] lemma ofRat_re (q : ℚ) : (ofRat q).re = q := rfl
@[simp] lemma ofRat_im (q : ℚ) : (ofRat q).im = 0 := rfl

lemma ext2 : ∀ {a b : Cplx}, a.re = b.re → a.im = b.im → a = b := by
  intro ⟨ar, ai⟩ ⟨br, bi⟩ h1 h2
  cases h1; cases h2; rfl

instance : CommRing Cplx where
  add_assoc := by intro a b c; apply ext2 <;> simp <;> ring
  zero_add := by intro a; apply ext2 <;> simp
  add_zero := by intro a; apply ext2 <;> simp
  add_comm := by intro a b; apply ext2 <;> simp <;> ring
  neg_add_cancel := by intro a; apply ext2 <;> simp
  left_distrib := by intro a b c; apply ext2 <;> simp <;> ring
  right_distrib := by intro a b c; apply ext2 <;> simp <;> ring
  zero_mul := by intro a; apply ext2 <;> simp
  mul_zero := by intro a; apply ext2 <;> simp
  mul_assoc := by intro a b c; apply ext2 <;> simp <;> ring
  one_mul := by intro a; apply ext2 <;> simp
  mul_one := by intro a; apply ext2 <;> simp
  mul_comm := by intro a b; apply ext2 <;> simp <;> ring
  nsmul := nsmulRec
  zsmul := zsmulRec

/-- Complex conjugation, embedding `std::conj`. -/
def conj (z : Cplx) : Cplx := ⟨z.re, -z.im⟩

@[simp] lemma conj_re (z : Cplx) : (conj z).re = z.re := rfl
@[simp] lemma conj_im (z : Cplx) : (conj z).im = -z.im := rfl

@[simp] lemma conj_add (a b : Cplx) : conj (a + b) = conj a + conj b := by
  apply ext2 <;> simp <;> ring

@[simp] lemma conj_mul (a b : Cplx) : conj (a * b) = conj a * conj b := by
  apply ext2 <;> simp <;> ring

@[simp] lemma conj_zero : conj 0 = 0 := by apply ext2 <;> simp

/-- Division of a complex scalar by a real scalar, embedding
`t_cplx / t_real`. -/
def divR (z : Cplx) (c : ℚ) : Cplx := ⟨z.re / c, z.im / c⟩

@[simp] lemma divR_re (z : Cplx) (c : ℚ) : (divR z c).re = z.re / c := rfl
@[simp] lemma divR_im (z : Cplx) (c : ℚ) : (divR z c).im = z.im / c := rfl

@[simp] lemma divR_zero_left (c : ℚ) : divR 0 c = 0 := by
  apply ext2 <;> simp

lemma divR_add (a b : Cplx) (c : ℚ) : divR (a + b) c = divR a c + divR b c := by
  apply ext2 <;> simp <;> ring

end Cplx

/-- One magnetic site, with the fields of `MagneticSite` read by the
correlation routine: position `pos_calc`, spin magnitude `spin_mag_calc`,
and the precomputed local-frame vectors `ge_trafo_plane_calc` (`u`) and
`ge_trafo_plane_conj_calc` (`u*`). -/
structure MagneticSite where
  pos_calc : Fin 3 → ℚ
  spin_mag_calc : ℚ
  ge_trafo_plane_calc : Fin 3 → Cplx
  ge_trafo_plane_conj_calc : Fin 3 → Cplx

instance : Inhabited MagneticSite :=
  ⟨⟨fun _ => 0, 0, fun _ => 0, fun _ => 0⟩⟩

/-- One per-band record, embedding `EnergyAndWeight`: energy `E`,
correlation tensor `S`, projected tensor `S_perp`, their traces and the
scalar weights. -/
structure EnergyAndWeight where
  E : ℚ
  S : Matrix (Fin 3) (Fin 3) Cplx
  S_perp : Matrix (Fin 3) (Fin 3) Cplx
  S_sum : Cplx
  S_perp_sum : Cplx
  weight_full : ℚ
  weight : ℚ
deriving DecidableEq

instance : Inhabited EnergyAndWeight := ⟨⟨0, 0, 0, 0, 0, 0, 0⟩⟩

/-- The model state: the magnetic sites and the configuration read by the
two routines.  The last six fields embed functions whose code is outside
the examined translation unit; each is documented at its use site. -/
structure Magdyn where
  sites : List MagneticSite
  /-- `m_phase_sign` (the configured phase-sign convention). -/
  phase_sign : ℚ
  /-- `m_temperature` (negative = disabled sentinel). -/
  temperature : ℚ
  /-- `m_bose_cutoff`. -/
  bose_cutoff : ℚ
  /-- `m_magffact_formula` (the form-factor expression string). -/
  magffact_formula : String
  /-- `m_xtalB` (crystal reciprocal-to-Cartesian metric matrix). -/
  xtalB : Matrix (Fin 3) (Fin 3) ℚ
  /-- Modelled from the spec: the real constant `2π` (`s_twopi`), which has
  no rational value; carried as an abstract real scalar. -/
  twopi : ℚ
  /-- Modelled from the spec: real square root (`std::sqrt` on `t_real`),
  not part of the examined translation unit. -/
  rsqrt : ℚ → ℚ
  /-- Modelled from the spec: complex square root (`std::sqrt` on
  `t_cplx`), not part of the examined translation unit. -/
  csqrt : Cplx → Cplx
  /-- Modelled from the spec: complex exponential (`std::exp` on
  `t_cplx`), not part of the examined translation unit. -/
  cexp : Cplx → Cplx
  /-- Modelled from the spec: `tl2::bose_cutoff(E, T, cutoff)`, "a
  detailed-balance occupation factor that is a function of
  `(E, temperature, cutoff)`"; its body is not in the examined translation
  unit, so it is carried as an abstract function of those three arguments. -/
  bose : ℚ → ℚ → ℚ → ℚ
  /-- Modelled from the spec: the expression parser's non-throwing
  evaluation (`ExprParser::eval_noexcept`) of the form-factor formula with
  the variable `Q` registered; a total function of the formula string and
  the registered `Q` value (totality embeds the non-throwing contract:
  every input yields a defined value). -/
  evalFF : String → ℚ → Cplx

/-- Site lookup `GetMagneticSite(i)`. -/
def Magdyn.siteAt (m : Magdyn) (i : ℕ) : MagneticSite := m.sites.getD i default

/-- Hermitian conjugate of a matrix, embedding `tl2::herm`. -/
def herm {a b : ℕ} (M : Matrix (Fin a) (Fin b) Cplx) : Matrix (Fin b) (Fin a) Cplx :=
  Matrix.of fun i j => Cplx.conj (M j i)

@[simp] lemma herm_apply {a b : ℕ} (M : Matrix (Fin a) (Fin b) Cplx) (i : Fin b) (j : Fin a) :
    herm M i j = Cplx.conj (M j i) := rfl

/-- Entrywise scaling of a matrix by a scalar (`t_mat * t_cplx` /
`operator*=`). -/
def matScale {a b : ℕ} (c : Cplx) (M : Matrix (Fin a) (Fin b) Cplx) : Matrix (Fin a) (Fin b) Cplx :=
  Matrix.of fun i j => c * M i j

@[simp] lemma matScale_apply {a b : ℕ} (c : Cplx) (M : Matrix (Fin a) (Fin b) Cplx)
    (i : Fin a) (j : Fin b) : matScale c M i j = c * M i j := rfl

/-- Modelled from the spec: `tl2::get_perm` (component "EnergySorter",
not in the examined translation unit) — "a permutation of band indices
ordered by non-increasing energy", produced with the comparator
`E[idx1] >= E[idx2]`; the unspecified tie-break is modelled as a stable
sort of the index list `0, …, len−1`. -/
def sortPerm (recs : List EnergyAndWeight) : List ℕ :=
  List.insertionSort
    (fun i j => (recs.getD i default).E ≥ (recs.getD j default).E)
    (List.range recs.length)

/-- Modelled from the spec: `tl2::reorder` — reads the eigenvector list
through the sorted index permutation. -/
def reorderEvecs {n : ℕ} (evecs : List (Fin n → Cplx)) (sorting : List ℕ) :
    List (Fin n → Cplx) :=
  sorting.map fun idx => evecs.getD idx (fun _ => 0)

/-- Modelled from the spec: `tl2::create` on a vector of column vectors —
"assemble them as columns of `V`". -/
def evecMat {n : ℕ} (cols : List (Fin n → Cplx)) : Matrix (Fin n) (Fin n) Cplx :=
  Matrix.of fun r c => (cols.getD c (fun _ => 0)) r

/-- The sorted eigenvector matrix `evec_mat` built by
`CalcCorrelationsFromHamiltonian` from its inputs. -/
def evecMatOf {n : ℕ} (recs : List EnergyAndWeight) (evecs : List (Fin n → Cplx)) :
    Matrix (Fin n) (Fin n) Cplx :=
  evecMat (reorderEvecs evecs (sortPerm recs))

/-- The matrix `E_sqrt`: `g_sign * energy_mat` with each diagonal entry
replaced by its complex square root (lines 102–104 of the source). -/
def esqrtMat {n : ℕ} (csqrt : Cplx → Cplx) (g energy : Matrix (Fin n) (Fin n) Cplx) :
    Matrix (Fin n) (Fin n) Cplx :=
  Matrix.of fun i j => if i = j then csqrt ((g * energy) i i) else (g * energy) i j

/-- Modelled from the spec: `tl2::inv` — returns a best-effort inverse and
a success flag; "if inversion fails (numerically singular)" the flag is
false and the returned matrix is unspecified (modelled as the zero
matrix); on success it returns the adjugate divided by the determinant. -/
def minv {n : ℕ} (M : Matrix (Fin n) (Fin n) Cplx) :
    Matrix (Fin n) (Fin n) Cplx × Bool :=
  if M.det = 0 then (0, false)
  else (matScale ⟨M.det.re / (M.det.re ^ 2 + M.det.im ^ 2),
                  -M.det.im / (M.det.re ^ 2 + M.det.im ^ 2)⟩ M.adjugate, true)

/-- The diagnostic emitted on inversion failure (lines 123–125 of the
source): `"Magdyn warning: Inversion failed at Q = …"`, naming the
momentum vector. -/
def invErrMsg (Qvec : Fin 3 → ℚ) : String :=
  "Magdyn warning: Inversion failed at Q = " ++ toString (Qvec 0) ++ "; "
    ++ toString (Qvec 1) ++ "; " ++ toString (Qvec 2) ++ "."

/-- `tl2::set_submat`: overwrite the block of `M` at row offset `roff`,
column offset `coff` with `sub`. -/
def setSubmat {n p q : ℕ} (M : Matrix (Fin n) (Fin n) Cplx)
    (sub : Matrix (Fin p) (Fin q) Cplx) (roff coff : ℕ) :
    Matrix (Fin n) (Fin n) Cplx :=
  Matrix.of fun r c =>
    if h : roff ≤ r.1 ∧ r.1 - roff < p ∧ coff ≤ c.1 ∧ c.1 - coff < q
    then sub ⟨r.1 - roff, h.2.1⟩ ⟨c.1 - coff, h.2.2.2⟩
    else M r c

/-- The real inner product `tl2::inner` on 3-vectors. -/
def innerR (a b : Fin 3 → ℚ) : ℚ := ∑ k, a k * b k

/-- The phase factor of equation (44):
`exp(-m_phase_sign · i · 2π · ⟨r_j − r_i, Q⟩)` (lines 168–169). -/
def phaseFac (m : Magdyn) (Qvec : Fin 3 → ℚ) (i j : ℕ) : Cplx :=
  m.cexp (-(Cplx.ofRat m.phase_sign) * Cplx.imagU * Cplx.ofRat m.twopi *
    Cplx.ofRat (innerR (fun k => (m.siteAt j).pos_calc k - (m.siteAt i).pos_calc k) Qvec))

/-- The geometric-mean spin magnitude `√(S_i·S_j)` (line 167). -/
def spinMag (m : Magdyn) (i j : ℕ) : ℚ :=
  m.rsqrt ((m.siteAt i).spin_mag_calc * (m.siteAt j).spin_mag_calc)

/-- The four `N×N` blocks `M00`, `M0N`, `MN0`, `MNN` of equation (44)
(lines 148–175), as functions of the Cartesian component pair `(x, y)`. -/
def blockM00 (m : Magdyn) (Qvec : Fin 3 → ℚ) (x y : Fin 3) :
    Matrix (Fin m.sites.length) (Fin m.sites.length) Cplx :=
  Matrix.of fun i j =>
    phaseFac m Qvec i j * Cplx.ofRat (spinMag m i j) *
      (m.siteAt i).ge_trafo_plane_calc x * (m.siteAt j).ge_trafo_plane_conj_calc y

/-- See `blockM00`. -/
def blockM0N (m : Magdyn) (Qvec : Fin 3 → ℚ) (x y : Fin 3) :
    Matrix (Fin m.sites.length) (Fin m.sites.length) Cplx :=
  Matrix.of fun i j =>
    phaseFac m Qvec i j * Cplx.ofRat (spinMag m i j) *
      (m.siteAt i).ge_trafo_plane_calc x * (m.siteAt j).ge_trafo_plane_calc y

/-- See `blockM00`. -/
def blockMN0 (m : Magdyn) (Qvec : Fin 3 → ℚ) (x y : Fin 3) :
    Matrix (Fin m.sites.length) (Fin m.sites.length) Cplx :=
  Matrix.of fun i j =>
    phaseFac m Qvec i j * Cplx.ofRat (spinMag m i j) *
      (m.siteAt i).ge_trafo_plane_conj_calc x * (m.siteAt j).ge_trafo_plane_conj_calc y

/-- See `blockM00`. -/
def blockMNN (m : Magdyn) (Qvec : Fin 3 → ℚ) (x y : Fin 3) :
    Matrix (Fin m.sites.length) (Fin m.sites.length) Cplx :=
  Matrix.of fun i j =>
    phaseFac m Qvec i j * Cplx.ofRat (spinMag m i j) *
      (m.siteAt i).ge_trafo_plane_conj_calc x * (m.siteAt j).ge_trafo_plane_calc y

/-- The `2N×2N` coupling matrix `M` of equation (47), assembled from the
four blocks with `tl2::set_submat` (lines 179–181). -/
def buildM (m : Magdyn) (Qvec : Fin 3 → ℚ) (x y : Fin 3) :
    Matrix (Fin (2 * m.sites.length)) (Fin (2 * m.sites.length)) Cplx :=
  setSubmat (setSubmat (setSubmat (setSubmat 0
    (blockM00 m Qvec x y) 0 0)
    (blockM0N m Qvec x y) 0 m.sites.length)
    (blockMN0 m Qvec x y) m.sites.length 0)
    (blockMNN m Qvec x y) m.sites.length m.sites.length

/-- One pass of the accumulation loop (lines 191–195): for each band `i`,
add `M_trafo(i,i) / (2N)` to entry `(x, y)` of that band's `S`. -/
def corrStep {n : ℕ} (Mtrafo : Matrix (Fin n) (Fin n) Cplx) (x y : Fin 3)
    (recs : List EnergyAndWeight) : List EnergyAndWeight :=
  recs.mapIdx fun i r =>
    if h : i < n then
      { r with S := Matrix.of fun a b =>
          if a = x ∧ b = y then r.S a b + Cplx.divR (Mtrafo ⟨i, h⟩ ⟨i, h⟩) (n : ℚ)
          else r.S a b }
    else r

/-- The list of the nine Cartesian component pairs, in the iteration
order of the two nested loops (lines 144–145). -/
def xyPairs : List (Fin 3 × Fin 3) :=
  (List.finRange 3).flatMap fun x => (List.finRange 3).map fun y => (x, y)

/-- The correlation accumulation over all nine component pairs
(lines 143–196), given the transform `trafo`. -/
def corrAccum (m : Magdyn) (Qvec : Fin 3 → ℚ)
    (trafo : Matrix (Fin (2 * m.sites.length)) (Fin (2 * m.sites.length)) Cplx)
    (recs : List EnergyAndWeight) : List EnergyAndWeight :=
  xyPairs.foldl
    (fun rs xy =>
      corrStep (herm trafo * buildM m Qvec xy.1 xy.2 * trafo) xy.1 xy.2 rs)
    recs

/-- The matrix `energy_mat = evec_mat_herm * H_mat * evec_mat` of
equation (32) (line 101). -/
def corrEnergyMat {n : ℕ} (records : List EnergyAndWeight)
    (H_mat : Matrix (Fin n) (Fin n) Cplx) (evecs : List (Fin n → Cplx)) :
    Matrix (Fin n) (Fin n) Cplx :=
  herm (evecMatOf records evecs) * H_mat * evecMatOf records evecs

/-- The re-created band records (lines 107–118): one record per row of
`energy_mat`, with `E = energy_mat(i,i).real()` and zeroed tensors. -/
def corrRecords1 {n : ℕ} (energy_mat : Matrix (Fin n) (Fin n) Cplx) :
    List EnergyAndWeight :=
  (List.finRange n).map fun i =>
    { E := (energy_mat i i).re, S := 0, S_perp := 0,
      S_sum := 0, S_perp_sum := 0, weight_full := 0, weight := 0 }

/-- The transform `trafo = chol_inv * evec_mat * E_sqrt` of equation (34)
(line 129). -/
def corrTrafo {n : ℕ} (csqrt : Cplx → Cplx) (records : List EnergyAndWeight)
    (H_mat chol_mat g_sign : Matrix (Fin n) (Fin n) Cplx)
    (evecs : List (Fin n → Cplx)) : Matrix (Fin n) (Fin n) Cplx :=
  (minv chol_mat).1 * evecMatOf records evecs *
    esqrtMat csqrt g_sign (corrEnergyMat records H_mat evecs)

/-- `CalcCorrelationsFromHamiltonian` (lines 78–197): returns the new
band-record list together with the diagnostics written to the error
channel. -/
def CalcCorrelationsFromHamiltonian (m : Magdyn)
    (records : List EnergyAndWeight)
    (H_mat chol_mat g_sign : Matrix (Fin (2 * m.sites.length)) (Fin (2 * m.sites.length)) Cplx)
    (Qvec : Fin 3 → ℚ)
    (evecs : List (Fin (2 * m.sites.length) → Cplx)) :
    List EnergyAndWeight × List String :=
  if m.sites.length = 0 then (records, [])
  else
    (corrAccum m Qvec (corrTrafo m.csqrt records H_mat chol_mat g_sign evecs)
      (corrRecords1 (corrEnergyMat records H_mat evecs)),
     if (minv chol_mat).2 then [] else [invErrMsg Qvec])

/-- Modelled from the spec: `tl2::ortho_projector` (not in the examined
translation unit) — "the orthogonal projector onto the plane perpendicular
to `Q`": `P = 1 − |Q⟩⟨Q| / ⟨Q|Q⟩`, as a complex matrix with real
entries. -/
def orthoProjector (Q : Fin 3 → ℚ) : Matrix (Fin 3) (Fin 3) Cplx :=
  Matrix.of fun i j =>
    Cplx.ofRat ((if i = j then 1 else 0) - Q i * Q j / (∑ k, Q k * Q k))

/-- The Bose-weighting step (lines 214–216): if the configured
temperature is non-negative, multiply `S` by
`tl2::bose_cutoff(E, temperature, cutoff)`; otherwise leave `S`. -/
def boseStep (m : Magdyn) (E : ℚ) (S : Matrix (Fin 3) (Fin 3) Cplx) :
    Matrix (Fin 3) (Fin 3) Cplx :=
  if m.temperature ≥ 0
  then matScale (Cplx.ofRat (m.bose E m.temperature m.bose_cutoff)) S
  else S

/-- `|Q|` in Å⁻¹ (lines 221–223): transform `Q` from reduced lattice
units with the crystal metric `m_xtalB`, then take the Euclidean norm. -/
def ffQabs (m : Magdyn) (Q_rlu : Fin 3 → ℚ) : ℚ :=
  m.rsqrt (∑ i, (∑ j, m.xtalB i j * Q_rlu j) * (∑ j, m.xtalB i j * Q_rlu j))

/-- The form-factor step (lines 218–229): if the formula string is
non-empty, evaluate it at `|Q|` and multiply `S` by the real part of the
result; otherwise leave `S`. -/
def ffactStep (m : Magdyn) (Q_rlu : Fin 3 → ℚ) (S : Matrix (Fin 3) (Fin 3) Cplx) :
    Matrix (Fin 3) (Fin 3) Cplx :=
  if m.magffact_formula ≠ ""
  then matScale (Cplx.ofRat ((m.evalFF m.magffact_formula (ffQabs m Q_rlu)).re)) S
  else S

/-- `CalcIntensities` (lines 205–261): per band, apply the Bose factor,
the optional form factor, the transverse projector, and compute the
scalar weights. -/
def CalcIntensities (m : Magdyn) (Q_rlu : Fin 3 → ℚ)
    (recs : List EnergyAndWeight) : List EnergyAndWeight :=
  recs.map fun r =>
    let S2 := ffactStep m Q_rlu (boseStep m r.E r.S)
    let P := orthoProjector Q_rlu
    let Sperp := P * S2 * P
    { r with
      S := S2
      S_perp := Sperp
      S_sum := Matrix.trace S2
      S_perp_sum := Matrix.trace Sperp
      weight_full := |(Matrix.trace S2).re|
      weight := |(Matrix.trace Sperp).re| }

lemma CalcIntensities_getD (m : Magdyn) (Q_rlu : Fin 3 → ℚ)
    (recs : List EnergyAndWeight) (k : ℕ) (hk : k < recs.length) :
    (CalcIntensities m Q_rlu recs).getD k default =
      { recs.getD k default with
        S := ffactStep m Q_rlu (boseStep m (recs.getD k default).E (recs.getD k default).S)
        S_perp := orthoProjector Q_rlu
          * ffactStep m Q_rlu (boseStep m (recs.getD k default).E (recs.getD k default).S)
          * orthoProjector Q_rlu
        S_sum := Matrix.trace
          (ffactStep m Q_rlu (boseStep m (recs.getD k default).E (recs.getD k default).S))
        S_perp_sum := Matrix.trace (orthoProjector Q_rlu
          * ffactStep m Q_rlu (boseStep m (recs.getD k default).E (recs.getD k default).S)
          * orthoProjector Q_rlu)
        weight_full := |(Matrix.trace
          (ffactStep m Q_rlu (boseStep m (recs.getD k default).E (recs.getD k default).S))).re|
        weight := |(Matrix.trace (orthoProjector Q_rlu
          * ffactStep m Q_rlu (boseStep m (recs.getD k default).E (recs.getD k default).S)
          * orthoProjector Q_rlu)).re| } := by
  have hk2 : k < (CalcIntensities m Q_rlu recs).length := by
    simpa [CalcIntensities] using hk
  rw [List.getD_eq_getElem _ _ hk2, List.getD_eq_getElem _ _ hk]
  simp [CalcIntensities]

/-! ### Structural lemmas about the accumulation loop -/

lemma length_corrStep {n : ℕ} (M : Matrix (Fin n) (Fin n) Cplx) (x y : Fin 3)
    (recs : List EnergyAndWeight) : (corrStep M x y recs).length = recs.length := by
  simp [corrStep]

lemma corrStep_getD {n : ℕ} (M : Matrix (Fin n) (Fin n) Cplx) (x y : Fin 3)
    (recs : List EnergyAndWeight) (k : ℕ) (hk : k < recs.length) :
    (corrStep M x y recs).getD k default =
      if h : k < n then
        { recs.getD k default with S := Matrix.of fun a b =>
            if a = x ∧ b = y
            then (recs.getD k default).S a b + Cplx.divR (M ⟨k, h⟩ ⟨k, h⟩) (n : ℚ)
            else (recs.getD k default).S a b }
      else recs.getD k default := by
  have hk2 : k < (corrStep M x y recs).length := by
    rw [length_corrStep]; exact hk
  rw [List.getD_eq_getElem _ _ hk2, List.getD_eq_getElem _ _ hk]
  simp [corrStep, List.getElem_mapIdx]

lemma map_E_corrStep {n : ℕ} (M : Matrix (Fin n) (Fin n) Cplx) (x y : Fin 3)
    (recs : List EnergyAndWeight) :
    (corrStep M x y recs).map (fun r => r.E) = recs.map (fun r => r.E) := by
  apply List.ext_getElem
  · simp [length_corrStep]
  · intro k h1 h2
    simp only [List.getElem_map, corrStep, List.getElem_mapIdx]
    split <;> rfl

lemma length_corrAccum (m : Magdyn) (Qvec : Fin 3 → ℚ)
    (trafo : Matrix (Fin (2 * m.sites.length)) (Fin (2 * m.sites.length)) Cplx)
    (recs : List EnergyAndWeight) :
    (corrAccum m Qvec trafo recs).length = recs.length := by
  show (xyPairs.foldl _ recs).length = recs.length
  induction xyPairs generalizing recs with
  | nil => rfl
  | cons p tl ih => simpa [List.foldl_cons, length_corrStep] using ih (corrStep _ p.1 p.2 recs)

lemma map_E_corrAccum (m : Magdyn) (Qvec : Fin 3 → ℚ)
    (trafo : Matrix (Fin (2 * m.sites.length)) (Fin (2 * m.sites.length)) Cplx)
    (recs : List EnergyAndWeight) :
    (corrAccum m Qvec trafo recs).map (fun r => r.E) = recs.map (fun r => r.E) := by
  show (xyPairs.foldl _ recs).map _ = _
  induction xyPairs generalizing recs with
  | nil => rfl
  | cons p tl ih =>
      rw [List.foldl_cons, ih (corrStep _ p.1 p.2 recs), map_E_corrStep]

lemma xyPairs_nodup : xyPairs.Nodup := by decide

lemma mem_xyPairs (p : Fin 3 × Fin 3) : p ∈ xyPairs := by
  revert p; decide

lemma foldl_corrStep_S (m : Magdyn) (Qvec : Fin 3 → ℚ)
    (trafo : Matrix (Fin (2 * m.sites.length)) (Fin (2 * m.sites.length)) Cplx)
    (ps : List (Fin 3 × Fin 3)) (hnd : ps.Nodup)
    (recs : List EnergyAndWeight) (k : ℕ) (hk : k < recs.length)
    (hkn : k < 2 * m.sites.length) (x y : Fin 3) :
    ((ps.foldl
        (fun rs xy => corrStep (herm trafo * buildM m Qvec xy.1 xy.2 * trafo) xy.1 xy.2 rs)
        recs).getD k default).S x y
      = (recs.getD k default).S x y
        + (if (x, y) ∈ ps
           then Cplx.divR ((herm trafo * buildM m Qvec x y * trafo) ⟨k, hkn⟩ ⟨k, hkn⟩)
                  ((2 * m.sites.length : ℕ) : ℚ)
           else 0) := by
  induction ps generalizing recs with
  | nil => simp
  | cons p tl ih =>
      obtain ⟨p1, p2⟩ := p
      rw [List.foldl_cons]
      have hnd2 := (List.nodup_cons.mp hnd).2
      have hmemp := (List.nodup_cons.mp hnd).1
      have hk2 : k < (corrStep (herm trafo * buildM m Qvec p1 p2 * trafo) p1 p2 recs).length := by
        rw [length_corrStep]; exact hk
      rw [ih hnd2 _ hk2]
      rw [corrStep_getD _ _ _ _ _ hk, dif_pos hkn]
      by_cases hxy : x = p1 ∧ y = p2
      · obtain ⟨hx, hy⟩ := hxy
        subst hx; subst hy
        have hmem2 : (x, y) ∉ tl := hmemp
        simp [hmem2]
      · have hne : ((x, y) : Fin 3 × Fin 3) ≠ (p1, p2) := by
          simpa [Prod.ext_iff] using hxy
        have hmemiff : ((x, y) ∈ (p1, p2) :: tl) ↔ ((x, y) ∈ tl) := by
          constructor
          · intro hmem
            rcases List.mem_cons.mp hmem with heq | hmem2
            · exact absurd heq hne
            · exact hmem2
          · exact fun hmem => List.mem_cons_of_mem _ hmem
        simp only [Matrix.of_apply, if_neg hxy]
        by_cases hmem : (x, y) ∈ tl
        · rw [if_pos hmem, if_pos (hmemiff.mpr hmem)]
        · rw [if_neg hmem, if_neg (fun hc => hmem (hmemiff.mp hc))]

lemma corrAccum_S (m : Magdyn) (Qvec : Fin 3 → ℚ)
    (trafo : Matrix (Fin (2 * m.sites.length)) (Fin (2 * m.sites.length)) Cplx)
    (recs : List EnergyAndWeight) (k : ℕ) (hk : k < recs.length)
    (hkn : k < 2 * m.sites.length) (x y : Fin 3) :
    ((corrAccum m Qvec trafo recs).getD k default).S x y
      = (recs.getD k default).S x y
        + Cplx.divR ((herm trafo * buildM m Qvec x y * trafo) ⟨k, hkn⟩ ⟨k, hkn⟩)
            ((2 * m.sites.length : ℕ) : ℚ) := by
  unfold corrAccum
  rw [foldl_corrStep_S m Qvec trafo xyPairs xyPairs_nodup recs k hk hkn x y,
    if_pos (mem_xyPairs (x, y))]

lemma length_corrRecords1 {n : ℕ} (E : Matrix (Fin n) (Fin n) Cplx) :
    (corrRecords1 E).length = n := by
  simp [corrRecords1]

lemma corrRecords1_getD {n : ℕ} (E : Matrix (Fin n) (Fin n) Cplx) (k : ℕ) (hk : k < n) :
    (corrRecords1 E).getD k default =
      { E := (E ⟨k, hk⟩ ⟨k, hk⟩).re, S := 0, S_perp := 0,
        S_sum := 0, S_perp_sum := 0, weight_full := 0, weight := 0 } := by
  have hk2 : k < (corrRecords1 E).length := by rw [length_corrRecords1]; exact hk
  rw [List.getD_eq_getElem _ _ hk2]
  simp only [corrRecords1, List.getElem_map, List.getElem_finRange, Fin.cast_mk]

lemma corrAccum_E (m : Magdyn) (Qvec : Fin 3 → ℚ)
    (trafo : Matrix (Fin (2 * m.sites.length)) (Fin (2 * m.sites.length)) Cplx)
    (recs : List EnergyAndWeight) (k : ℕ) :
    ((corrAccum m Qvec trafo recs).getD k default).E = (recs.getD k default).E := by
  have h := congrArg (fun l => l.getD k ((default : EnergyAndWeight).E))
    (map_E_corrAccum m Qvec trafo recs)
  simpa [List.getD_map] using h

/-! ### Concrete instances used by the witnesses and counterexamples -/

/-- A single-site fixture: the ferromagnetic reference site with
`u = (1, i, 0)`, `u* = (1, -i, 0)`, spin magnitude 1, at the origin. -/
def siteW : MagneticSite :=
  { pos_calc := fun _ => 0
    spin_mag_calc := 1
    ge_trafo_plane_calc := fun k => if k.1 = 0 then 1 else if k.1 = 1 then Cplx.imagU else 0
    ge_trafo_plane_conj_calc := fun k => if k.1 = 0 then 1 else if k.1 = 1 then -Cplx.imagU else 0 }

/-- Modelled from the spec: a concrete stand-in for the complex
exponential, specified only at argument `0`, the single point at which
the fixtures below evaluate it (`exp 0 = 1`). -/
def cexpW : Cplx → Cplx := fun z => if z = 0 then 1 else 0

/-- Modelled from the spec: a concrete stand-in for the complex square
root, exact on rationals with perfect-square real part and zero imaginary
part — the only points at which the fixtures below evaluate it. -/
def csqrtW : Cplx → Cplx := fun z => ⟨Rat.sqrt z.re, 0⟩

/-- The concrete model instance used by witnesses: one site, phase sign 1,
Bose weighting disabled (negative temperature), no form-factor formula. -/
def mW : Magdyn :=
  { sites := [siteW]
    phase_sign := 1
    temperature := -1
    bose_cutoff := 1
    magffact_formula := ""
    xtalB := 1
    twopi := 7
    rsqrt := Rat.sqrt
    csqrt := csqrtW
    cexp := cexpW
    bose := fun _ _ _ => 2
    evalFF := fun _ _ => ⟨3, 1⟩ }

/-- A band record with energy `e` and zeroed tensors. -/
def recW (e : ℚ) : EnergyAndWeight :=
  { E := e, S := 0, S_perp := 0, S_sum := 0, S_perp_sum := 0, weight_full := 0, weight := 0 }

/-- The zero-site variant of `mW`. -/
def mW0 : Magdyn := { mW with sites := [] }

/-! ### Claims -/

/-- C9: for a site count of zero, `CalcCorrelationsFromHamiltonian`
returns immediately, leaving the band-record sequence exactly as provided
and emitting no diagnostic — a defined no-op, not an error. -/
theorem c9_zero_sites_noop (m : Magdyn) (records : List EnergyAndWeight)
    (H_mat chol_mat g_sign : Matrix (Fin (2 * m.sites.length)) (Fin (2 * m.sites.length)) Cplx)
    (Qvec : Fin 3 → ℚ) (evecs : List (Fin (2 * m.sites.length) → Cplx))
    (h0 : m.sites.length = 0) :
    CalcCorrelationsFromHamiltonian m records H_mat chol_mat g_sign Qvec evecs
      = (records, []) := by
  unfold CalcCorrelationsFromHamiltonian
  rw [if_pos h0]

/-- Witness for C9 at a concrete zero-site model. -/
theorem c9_witness :
    mW0.sites.length = 0
    ∧ CalcCorrelationsFromHamiltonian mW0 [recW 1] 0 0 0 (fun _ => 0) []
        = ([recW 1], []) :=
  ⟨rfl, c9_zero_sites_noop mW0 [recW 1] 0 0 0 (fun _ => 0) [] rfl⟩

/-- C10: `CalcIntensities` never modifies the energy `E` of any band
record — the output energy sequence equals the input energy sequence. -/
theorem c10_energies_preserved (m : Magdyn) (Q_rlu : Fin 3 → ℚ)
    (recs : List EnergyAndWeight) :
    (CalcIntensities m Q_rlu recs).map (fun r => r.E) = recs.map (fun r => r.E) := by
  unfold CalcIntensities
  rw [List.map_map]
  rfl

/-- C7: when inversion of the Cholesky factor fails, a diagnostic naming
the momentum vector `Q` is emitted on the error channel, and the function
still returns the full band-record output (one record per doubled-basis
row), computed from whatever matrix the inversion routine returned. -/
theorem c7_inversion_warning (m : Magdyn) (records : List EnergyAndWeight)
    (H_mat chol_mat g_sign : Matrix (Fin (2 * m.sites.length)) (Fin (2 * m.sites.length)) Cplx)
    (Qvec : Fin 3 → ℚ) (evecs : List (Fin (2 * m.sites.length) → Cplx))
    (hN : m.sites.length ≠ 0)
    (hfail : (minv chol_mat).2 = false) :
    (CalcCorrelationsFromHamiltonian m records H_mat chol_mat g_sign Qvec evecs).2
      = [invErrMsg Qvec]
    ∧ (CalcCorrelationsFromHamiltonian m records H_mat chol_mat g_sign Qvec evecs).1.length
      = 2 * m.sites.length
    ∧ (CalcCorrelationsFromHamiltonian m records H_mat chol_mat g_sign Qvec evecs).1
      = corrAccum m Qvec (corrTrafo m.csqrt records H_mat chol_mat g_sign evecs)
          (corrRecords1 (corrEnergyMat records H_mat evecs)) := by
  unfold CalcCorrelationsFromHamiltonian
  rw [if_neg hN]
  refine ⟨by rw [hfail]; rfl, ?_, rfl⟩
  show (corrAccum _ _ _ _).length = _
  rw [length_corrAccum, length_corrRecords1]

unseal Rat.mul Rat.add Rat.sub Rat.inv in
theorem c7_witness :
    (mW.sites.length ≠ 0 ∧ (minv (0 : Matrix (Fin (2 * mW.sites.length))
        (Fin (2 * mW.sites.length)) Cplx)).2 = false)
    ∧ (CalcCorrelationsFromHamiltonian mW [recW 1, recW 1] 0 0 0 (fun _ => 0) []).2
        = [invErrMsg (fun _ => 0)] :=
  ⟨⟨by decide, by decide⟩,
    (c7_inversion_warning mW [recW 1, recW 1] 0 0 0 (fun _ => 0) []
      (by decide) (by decide)).1⟩

/-- C5: in `CalcIntensities`, for every band: with non-negative
configured temperature, `S` is multiplied by the Bose occupation factor
computed from `(E, temperature, cutoff)`; with negative temperature the
Bose step leaves `S` numerically unchanged (the output `S` is exactly the
form-factor step applied to the input `S`), and when the form-factor
formula is also empty, `S` is unchanged relative to the input. -/
theorem c5_bose_weighting (m : Magdyn) (Q_rlu : Fin 3 → ℚ)
    (recs : List EnergyAndWeight) (k : ℕ) (hk : k < recs.length) :
    (m.temperature ≥ 0 →
      ((CalcIntensities m Q_rlu recs).getD k default).S
        = ffactStep m Q_rlu
            (matScale (Cplx.ofRat (m.bose (recs.getD k default).E m.temperature m.bose_cutoff))
              (recs.getD k default).S))
    ∧ (m.temperature < 0 →
      ((CalcIntensities m Q_rlu recs).getD k default).S
        = ffactStep m Q_rlu (recs.getD k default).S)
    ∧ (m.temperature < 0 → m.magffact_formula = "" →
      ((CalcIntensities m Q_rlu recs).getD k default).S
        = (recs.getD k default).S) := by
  rw [CalcIntensities_getD m Q_rlu recs k hk]
  refine ⟨fun ht => ?_, fun ht => ?_, fun ht hf => ?_⟩
  · show ffactStep m Q_rlu (boseStep m _ _) = _
    rw [boseStep, if_pos ht]
  · show ffactStep m Q_rlu (boseStep m _ _) = _
    rw [boseStep, if_neg (not_le.mpr ht)]
  · show ffactStep m Q_rlu (boseStep m _ _) = _
    rw [boseStep, if_neg (not_le.mpr ht), ffactStep]
    simp [hf]

theorem c5_witness :
    (0 : ℕ) < 1
    ∧ ({ mW with temperature := 2 }.temperature ≥ 0 →
      ((CalcIntensities { mW with temperature := 2 } (fun _ => 0) [recW 1]).getD 0 default).S
        = ffactStep { mW with temperature := 2 } (fun _ => 0)
            (matScale (Cplx.ofRat ({ mW with temperature := 2 }.bose
                (([recW 1].getD 0 default)).E
                { mW with temperature := 2 }.temperature
                { mW with temperature := 2 }.bose_cutoff))
              (([recW 1].getD 0 default)).S)) :=
  ⟨by decide,
    (c5_bose_weighting { mW with temperature := 2 } (fun _ => 0) [recW 1] 0 (by decide)).1⟩

/-- C8: in `CalcIntensities`, exactly when the configured form-factor
expression string is non-empty, `Q` is converted to an absolute magnitude
through the crystal metric `m_xtalB` and the Euclidean norm, the
expression is evaluated there by the total (non-throwing) evaluator, and
`S` is multiplied by the real part of the result; with an empty
expression the step is skipped entirely. -/
theorem c8_form_factor (m : Magdyn) (Q_rlu : Fin 3 → ℚ)
    (recs : List EnergyAndWeight) (k : ℕ) (hk : k < recs.length) :
    (m.magffact_formula ≠ "" →
      ((CalcIntensities m Q_rlu recs).getD k default).S
        = matScale (Cplx.ofRat ((m.evalFF m.magffact_formula
            (m.rsqrt (∑ i, (∑ j, m.xtalB i j * Q_rlu j) * (∑ j, m.xtalB i j * Q_rlu j)))).re))
            (boseStep m (recs.getD k default).E (recs.getD k default).S))
    ∧ (m.magffact_formula = "" →
      ((CalcIntensities m Q_rlu recs).getD k default).S
        = boseStep m (recs.getD k default).E (recs.getD k default).S) := by
  rw [CalcIntensities_getD m Q_rlu recs k hk]
  refine ⟨fun hf => ?_, fun hf => ?_⟩
  · show ffactStep m Q_rlu (boseStep m _ _) = _
    rw [ffactStep, if_pos hf, ffQabs]
  · show ffactStep m Q_rlu (boseStep m _ _) = _
    rw [ffactStep]
    simp [hf]

theorem c8_witness :
    (0 : ℕ) < 1
    ∧ ({ mW with magffact_formula := "Q" }.magffact_formula ≠ "" →
      ((CalcIntensities { mW with magffact_formula := "Q" } (fun _ => 0) [recW 1]).getD
          0 default).S
        = matScale (Cplx.ofRat (({ mW with magffact_formula := "Q" }.evalFF
            { mW with magffact_formula := "Q" }.magffact_formula
            ({ mW with magffact_formula := "Q" }.rsqrt
              (∑ i, (∑ j, { mW with magffact_formula := "Q" }.xtalB i j * (fun _ => (0:ℚ)) j)
                * (∑ j, { mW with magffact_formula := "Q" }.xtalB i j * (fun _ => (0:ℚ)) j)))).re))
            (boseStep { mW with magffact_formula := "Q" }
              (([recW 1].getD 0 default)).E (([recW 1].getD 0 default)).S)) :=
  ⟨by decide,
    (c8_form_factor { mW with magffact_formula := "Q" } (fun _ => 0) [recW 1] 0 (by decide)).1⟩

lemma CalcCorr_fst_of_ne (m : Magdyn) (records : List EnergyAndWeight)
    (H_mat chol_mat g_sign : Matrix (Fin (2 * m.sites.length)) (Fin (2 * m.sites.length)) Cplx)
    (Qvec : Fin 3 → ℚ) (evecs : List (Fin (2 * m.sites.length) → Cplx))
    (hN : m.sites.length ≠ 0) :
    (CalcCorrelationsFromHamiltonian m records H_mat chol_mat g_sign Qvec evecs).1
      = corrAccum m Qvec (corrTrafo m.csqrt records H_mat chol_mat g_sign evecs)
          (corrRecords1 (corrEnergyMat records H_mat evecs)) := by
  unfold CalcCorrelationsFromHamiltonian
  rw [if_neg hN]

/-- C1: with at least one magnetic site, the energy stored in output band
record `k` equals the real part of the `k`-th diagonal element of
`V† H V`, where `V` holds the eigenvectors as columns in the sorted
order; and the whole output energy sequence does not depend on the sign
matrix `g_sign`. -/
theorem c1_energies_re_diag (m : Magdyn) (records : List EnergyAndWeight)
    (H_mat chol_mat g_sign g_sign2 : Matrix (Fin (2 * m.sites.length))
      (Fin (2 * m.sites.length)) Cplx)
    (Qvec : Fin 3 → ℚ) (evecs : List (Fin (2 * m.sites.length) → Cplx))
    (hN : m.sites.length ≠ 0) (k : Fin (2 * m.sites.length)) :
    ((CalcCorrelationsFromHamiltonian m records H_mat chol_mat g_sign Qvec evecs).1.getD
        k.1 default).E
      = ((herm (evecMatOf records evecs) * H_mat * evecMatOf records evecs) k k).re
    ∧ (CalcCorrelationsFromHamiltonian m records H_mat chol_mat g_sign Qvec evecs).1.map
        (fun r => r.E)
      = (CalcCorrelationsFromHamiltonian m records H_mat chol_mat g_sign2 Qvec evecs).1.map
        (fun r => r.E) := by
  constructor
  · rw [CalcCorr_fst_of_ne m records H_mat chol_mat g_sign Qvec evecs hN,
      corrAccum_E, corrRecords1_getD _ k.1 k.2]
    rfl
  · rw [CalcCorr_fst_of_ne m records H_mat chol_mat g_sign Qvec evecs hN,
      CalcCorr_fst_of_ne m records H_mat chol_mat g_sign2 Qvec evecs hN,
      map_E_corrAccum, map_E_corrAccum]

/-- Two-band Hamiltonian fixture `diag(0, 1)`. -/
def HW : Matrix (Fin (2 * mW.sites.length)) (Fin (2 * mW.sites.length)) Cplx :=
  Matrix.of fun i j => if i.1 = 1 ∧ j.1 = 1 then 1 else 0

/-- Identity Cholesky-factor fixture. -/
def cholIdW : Matrix (Fin (2 * mW.sites.length)) (Fin (2 * mW.sites.length)) Cplx :=
  Matrix.of fun i j => if i = j then 1 else 0

/-- A second (negated) sign-matrix fixture. -/
def gW2 : Matrix (Fin (2 * mW.sites.length)) (Fin (2 * mW.sites.length)) Cplx :=
  Matrix.of fun i j => if i = j then -1 else 0

/-- First basis eigenvector fixture. -/
def evec0W : Fin (2 * mW.sites.length) → Cplx := fun k => if k.1 = 0 then 1 else 0

/-- Second basis eigenvector fixture. -/
def evec1W : Fin (2 * mW.sites.length) → Cplx := fun k => if k.1 = 1 then 1 else 0

theorem c1_witness :
    mW.sites.length ≠ 0
    ∧ (((CalcCorrelationsFromHamiltonian mW [recW 5, recW 3] HW cholIdW cholIdW
          (fun _ => 0) [evec0W, evec1W]).1.getD 0 default).E
        = ((herm (evecMatOf [recW 5, recW 3] [evec0W, evec1W]) * HW
            * evecMatOf [recW 5, recW 3] [evec0W, evec1W])
            ⟨0, by decide⟩ ⟨0, by decide⟩).re
      ∧ (CalcCorrelationsFromHamiltonian mW [recW 5, recW 3] HW cholIdW cholIdW
          (fun _ => 0) [evec0W, evec1W]).1.map (fun r => r.E)
        = (CalcCorrelationsFromHamiltonian mW [recW 5, recW 3] HW cholIdW gW2
          (fun _ => 0) [evec0W, evec1W]).1.map (fun r => r.E)) :=
  ⟨by decide,
    c1_energies_re_diag mW [recW 5, recW 3] HW cholIdW cholIdW gW2
      (fun _ => 0) [evec0W, evec1W] (by decide) ⟨0, by decide⟩⟩

lemma setSubmat_apply {n p q : ℕ} (M : Matrix (Fin n) (Fin n) Cplx)
    (sub : Matrix (Fin p) (Fin q) Cplx) (roff coff : ℕ) (r c : Fin n) :
    setSubmat M sub roff coff r c
      = if h : roff ≤ r.1 ∧ r.1 - roff < p ∧ coff ≤ c.1 ∧ c.1 - coff < q
        then sub ⟨r.1 - roff, h.2.1⟩ ⟨c.1 - coff, h.2.2.2⟩
        else M r c := rfl

/-- The assembled coupling matrix in closed quadrant form: entry `(r, c)`
carries the phase and geometric-mean spin-magnitude prefactors and the
`u`/`u*` component product of the quadrant that `(r, c)` falls in. -/
lemma buildM_explicit (m : Magdyn) (Qvec : Fin 3 → ℚ) (x y : Fin 3) :
    buildM m Qvec x y
      = Matrix.of fun r c =>
          if r.1 < m.sites.length then
            (if c.1 < m.sites.length then
              phaseFac m Qvec r.1 c.1 * Cplx.ofRat (spinMag m r.1 c.1)
                * (m.siteAt r.1).ge_trafo_plane_calc x
                * (m.siteAt c.1).ge_trafo_plane_conj_calc y
            else
              phaseFac m Qvec r.1 (c.1 - m.sites.length)
                * Cplx.ofRat (spinMag m r.1 (c.1 - m.sites.length))
                * (m.siteAt r.1).ge_trafo_plane_calc x
                * (m.siteAt (c.1 - m.sites.length)).ge_trafo_plane_calc y)
          else
            (if c.1 < m.sites.length then
              phaseFac m Qvec (r.1 - m.sites.length) c.1
                * Cplx.ofRat (spinMag m (r.1 - m.sites.length) c.1)
                * (m.siteAt (r.1 - m.sites.length)).ge_trafo_plane_conj_calc x
                * (m.siteAt c.1).ge_trafo_plane_conj_calc y
            else
              phaseFac m Qvec (r.1 - m.sites.length) (c.1 - m.sites.length)
                * Cplx.ofRat (spinMag m (r.1 - m.sites.length) (c.1 - m.sites.length))
                * (m.siteAt (r.1 - m.sites.length)).ge_trafo_plane_conj_calc x
                * (m.siteAt (c.1 - m.sites.length)).ge_trafo_plane_calc y) := by
  funext r c
  have hr2 : r.1 < 2 * m.sites.length := r.2
  have hc2 : c.1 < 2 * m.sites.length := c.2
  by_cases hr : r.1 < m.sites.length
  · by_cases hc : c.1 < m.sites.length
    · rw [buildM, setSubmat_apply, dif_neg (by omega), setSubmat_apply, dif_neg (by omega),
        setSubmat_apply, dif_neg (by omega), setSubmat_apply, dif_pos (by omega)]
      simp [blockM00, hr, hc]
    · rw [buildM, setSubmat_apply, dif_neg (by omega), setSubmat_apply, dif_neg (by omega),
        setSubmat_apply, dif_pos (by omega)]
      simp [blockM0N, hr, hc]
  · by_cases hc : c.1 < m.sites.length
    · rw [buildM, setSubmat_apply, dif_neg (by omega), setSubmat_apply, dif_pos (by omega)]
      simp [blockMN0, hr, hc]
    · rw [buildM, setSubmat_apply, dif_pos (by omega)]
      simp [blockMNN, hr, hc]

/-- C2: with at least one magnetic site, output band record `k` holds, at
tensor entry `(x, y)`, exactly `(T† M T)(k,k) / (2N)`, where `T` is the
paraunitary transform built from the Cholesky inverse, the sorted
eigenvector matrix and `E_sqrt`, and `M` is the `2N×2N` coupling matrix
whose four `N×N` quadrants carry, for the site pair `(i, j)`, the phase
factor `exp(-sign·i·2π·Q·(r_j − r_i))`, the geometric-mean spin magnitude
`√(S_i·S_j)`, and the quadrant's `u`/`u*` component product at `(x, y)`. -/
theorem c2_coupling_accumulation (m : Magdyn) (records : List EnergyAndWeight)
    (H_mat chol_mat g_sign : Matrix (Fin (2 * m.sites.length)) (Fin (2 * m.sites.length)) Cplx)
    (Qvec : Fin 3 → ℚ) (evecs : List (Fin (2 * m.sites.length) → Cplx))
    (hN : m.sites.length ≠ 0) (k : Fin (2 * m.sites.length)) (x y : Fin 3) :
    ((CalcCorrelationsFromHamiltonian m records H_mat chol_mat g_sign Qvec evecs).1.getD
        k.1 default).S x y
      = Cplx.divR
          ((herm (corrTrafo m.csqrt records H_mat chol_mat g_sign evecs)
            * (Matrix.of fun (r c : Fin (2 * m.sites.length)) =>
                if r.1 < m.sites.length then
                  (if c.1 < m.sites.length then
                    phaseFac m Qvec r.1 c.1 * Cplx.ofRat (spinMag m r.1 c.1)
                      * (m.siteAt r.1).ge_trafo_plane_calc x
                      * (m.siteAt c.1).ge_trafo_plane_conj_calc y
                  else
                    phaseFac m Qvec r.1 (c.1 - m.sites.length)
                      * Cplx.ofRat (spinMag m r.1 (c.1 - m.sites.length))
                      * (m.siteAt r.1).ge_trafo_plane_calc x
                      * (m.siteAt (c.1 - m.sites.length)).ge_trafo_plane_calc y)
                else
                  (if c.1 < m.sites.length then
                    phaseFac m Qvec (r.1 - m.sites.length) c.1
                      * Cplx.ofRat (spinMag m (r.1 - m.sites.length) c.1)
                      * (m.siteAt (r.1 - m.sites.length)).ge_trafo_plane_conj_calc x
                      * (m.siteAt c.1).ge_trafo_plane_conj_calc y
                  else
                    phaseFac m Qvec (r.1 - m.sites.length) (c.1 - m.sites.length)
                      * Cplx.ofRat (spinMag m (r.1 - m.sites.length) (c.1 - m.sites.length))
                      * (m.siteAt (r.1 - m.sites.length)).ge_trafo_plane_conj_calc x
                      * (m.siteAt (c.1 - m.sites.length)).ge_trafo_plane_calc y))
            * corrTrafo m.csqrt records H_mat chol_mat g_sign evecs) k k)
          ((2 * m.sites.length : ℕ) : ℚ) := by
  rw [CalcCorr_fst_of_ne m records H_mat chol_mat g_sign Qvec evecs hN, ← buildM_explicit,
    corrAccum_S m Qvec _ _ k.1 (by rw [length_corrRecords1]; exact k.2) k.2 x y,
    corrRecords1_getD _ k.1 k.2]
  show (0 : Matrix (Fin 3) (Fin 3) Cplx) x y + _ = _
  rw [Matrix.zero_apply, zero_add]

theorem c2_witness :
    mW.sites.length ≠ 0
    ∧ ((CalcCorrelationsFromHamiltonian mW [recW 5, recW 3] HW cholIdW cholIdW
          (fun _ => 0) [evec0W, evec1W]).1.getD 0 default).S 0 0
      = Cplx.divR
          ((herm (corrTrafo mW.csqrt [recW 5, recW 3] HW cholIdW cholIdW [evec0W, evec1W])
            * (Matrix.of fun (r c : Fin (2 * mW.sites.length)) =>
                if r.1 < mW.sites.length then
                  (if c.1 < mW.sites.length then
                    phaseFac mW (fun _ => 0) r.1 c.1 * Cplx.ofRat (spinMag mW r.1 c.1)
                      * (mW.siteAt r.1).ge_trafo_plane_calc 0
                      * (mW.siteAt c.1).ge_trafo_plane_conj_calc 0
                  else
                    phaseFac mW (fun _ => 0) r.1 (c.1 - mW.sites.length)
                      * Cplx.ofRat (spinMag mW r.1 (c.1 - mW.sites.length))
                      * (mW.siteAt r.1).ge_trafo_plane_calc 0
                      * (mW.siteAt (c.1 - mW.sites.length)).ge_trafo_plane_calc 0)
                else
                  (if c.1 < mW.sites.length then
                    phaseFac mW (fun _ => 0) (r.1 - mW.sites.length) c.1
                      * Cplx.ofRat (spinMag mW (r.1 - mW.sites.length) c.1)
                      * (mW.siteAt (r.1 - mW.sites.length)).ge_trafo_plane_conj_calc 0
                      * (mW.siteAt c.1).ge_trafo_plane_conj_calc 0
                  else
                    phaseFac mW (fun _ => 0) (r.1 - mW.sites.length) (c.1 - mW.sites.length)
                      * Cplx.ofRat (spinMag mW (r.1 - mW.sites.length) (c.1 - mW.sites.length))
                      * (mW.siteAt (r.1 - mW.sites.length)).ge_trafo_plane_conj_calc 0
                      * (mW.siteAt (c.1 - mW.sites.length)).ge_trafo_plane_calc 0))
            * corrTrafo mW.csqrt [recW 5, recW 3] HW cholIdW cholIdW [evec0W, evec1W])
            ⟨0, by decide⟩ ⟨0, by decide⟩)
          ((2 * mW.sites.length : ℕ) : ℚ) :=
  ⟨by decide,
    c2_coupling_accumulation mW [recW 5, recW 3] HW cholIdW cholIdW
      (fun _ => 0) [evec0W, evec1W] (by decide) ⟨0, by decide⟩ 0 0⟩

lemma Cplx.divR_sum {ι : Type} (s : Finset ι) (f : ι → Cplx) (c : ℚ) :
    Cplx.divR (∑ i ∈ s, f i) c = ∑ i ∈ s, Cplx.divR (f i) c := by
  let h : Cplx →+ Cplx :=
    { toFun := fun z => Cplx.divR z c
      map_zero' := Cplx.divR_zero_left c
      map_add' := fun a b => Cplx.divR_add a b c }
  exact map_sum h f s

/-- Non-unitary paraunitary-transform fixture `diag(2, 1)`: it satisfies
`T† H T = diag(E)` for `H = 1`, `E = (4, 1)`, but `T T† ≠ 1`. -/
def trafoW : Matrix (Fin (2 * mW.sites.length)) (Fin (2 * mW.sites.length)) Cplx :=
  Matrix.of fun i j => if i = j then (if i.1 = 0 then ⟨2, 0⟩ else 1) else 0

unseal Rat.mul Rat.add Rat.sub Rat.inv in
/-- C3 as stated is false: with the coupling matrix `M` built by the code
at the one-site fixture and the transform `T = diag(2,1)` — valid in the
claim's sense, since `T† H T = diag(4,1)` for `H = 1` — the band sum of
the accumulated `S(0,0)` contributions is `5/2`, not
`trace(M)/(2N) = 1`. -/
theorem c3_claim_counterexample :
    (herm trafoW * cholIdW * trafoW
      = Matrix.diagonal (fun i : Fin (2 * mW.sites.length) =>
          if i.1 = 0 then (⟨4, 0⟩ : Cplx) else 1))
    ∧ ¬ ((∑ k : Fin (2 * mW.sites.length),
          ((corrAccum mW (fun _ => 0) trafoW [recW 0, recW 0]).getD k.1 default).S 0 0)
        = Cplx.divR (Matrix.trace (buildM mW (fun _ => 0) 0 0))
            ((2 * mW.sites.length : ℕ) : ℚ)) := by
  constructor
  · decide
  · decide

/-- C3 amended: the band sum of the contributions accumulated into
`S(x,y)` equals `trace(T† M T)/(2N)` for every transform `T`; it reduces
to the claimed `trace(M)/(2N)` only under the stronger hypothesis that
`T` is unitary (`T T† = 1`), which `T† H T = diag(E)` does not imply. -/
theorem c3_sum_rule_amended (m : Magdyn) (Qvec : Fin 3 → ℚ)
    (trafo : Matrix (Fin (2 * m.sites.length)) (Fin (2 * m.sites.length)) Cplx)
    (recs : List EnergyAndWeight) (hlen : recs.length = 2 * m.sites.length) (x y : Fin 3) :
    ((∑ k : Fin (2 * m.sites.length),
        ((corrAccum m Qvec trafo recs).getD k.1 default).S x y)
      = (∑ k : Fin (2 * m.sites.length), (recs.getD k.1 default).S x y)
        + Cplx.divR (Matrix.trace (herm trafo * buildM m Qvec x y * trafo))
            ((2 * m.sites.length : ℕ) : ℚ))
    ∧ (trafo * herm trafo = 1 →
        Matrix.trace (herm trafo * buildM m Qvec x y * trafo)
          = Matrix.trace (buildM m Qvec x y)) := by
  constructor
  · have hsum : ∀ k : Fin (2 * m.sites.length),
        ((corrAccum m Qvec trafo recs).getD k.1 default).S x y
          = (recs.getD k.1 default).S x y
            + Cplx.divR ((herm trafo * buildM m Qvec x y * trafo) k k)
                ((2 * m.sites.length : ℕ) : ℚ) := by
      intro k
      rw [corrAccum_S m Qvec trafo recs k.1 (by rw [hlen]; exact k.2) k.2 x y]
    rw [Finset.sum_congr rfl (fun k _ => hsum k), Finset.sum_add_distrib]
    congr 1
    rw [Matrix.trace, Cplx.divR_sum]
    rfl
  · intro h1
    rw [Matrix.trace_mul_cycle, h1, Matrix.one_mul]

unseal Rat.mul Rat.add Rat.sub Rat.inv in
theorem c3_witness :
    [recW 0, recW 0].length = 2 * mW.sites.length
    ∧ (((∑ k : Fin (2 * mW.sites.length),
          ((corrAccum mW (fun _ => 0) trafoW [recW 0, recW 0]).getD k.1 default).S 0 0)
        = (∑ k : Fin (2 * mW.sites.length), (([recW 0, recW 0].getD k.1 default)).S 0 0)
          + Cplx.divR (Matrix.trace (herm trafoW * buildM mW (fun _ => 0) 0 0 * trafoW))
              ((2 * mW.sites.length : ℕ) : ℚ))
      ∧ (trafoW * herm trafoW = 1 →
          Matrix.trace (herm trafoW * buildM mW (fun _ => 0) 0 0 * trafoW)
            = Matrix.trace (buildM mW (fun _ => 0) 0 0))) :=
  ⟨by decide,
    c3_sum_rule_amended mW (fun _ => 0) trafoW [recW 0, recW 0] (by decide) 0 0⟩

/-- The sesquilinear form `v† w`. -/
def cdot {n : ℕ} (v w : Fin n → Cplx) : Cplx := ∑ r, Cplx.conj (v r) * w r

lemma sortPerm_length (recs : List EnergyAndWeight) :
    (sortPerm recs).length = recs.length := by
  simp [sortPerm, List.length_insertionSort, List.length_range]

lemma corrEnergyMat_diag {n : ℕ} (records : List EnergyAndWeight)
    (H : Matrix (Fin n) (Fin n) Cplx) (evecs : List (Fin n → Cplx)) (k : Fin n) :
    corrEnergyMat records H evecs k k
      = cdot ((reorderEvecs evecs (sortPerm records)).getD k.1 (fun _ => 0))
          (H.mulVec ((reorderEvecs evecs (sortPerm records)).getD k.1 (fun _ => 0))) := by
  simp only [corrEnergyMat, evecMatOf, evecMat, Matrix.mul_apply, herm_apply, Matrix.of_apply,
    cdot, Matrix.mulVec, Matrix.dotProduct, Finset.sum_mul, Finset.mul_sum]
  rw [Finset.sum_comm]
  apply Finset.sum_congr rfl
  intro r hr
  apply Finset.sum_congr rfl
  intro c hc
  ring

unseal Rat.mul Rat.add Rat.sub Rat.inv in
/-- C4 as stated is false: the routine reorders the eigenvectors by the
*input* records' energies but recomputes the output energies from `H`;
when the stored input energies disagree with the eigen-data (here input
energies `(5, 3)` against `H = diag(0, 1)` with basis eigenvectors), the
output energy sequence is `(0, 1)`, which is not non-increasing. -/
theorem c4_claim_counterexample :
    ¬ List.Chain' (fun a b => a ≥ b)
      ((CalcCorrelationsFromHamiltonian mW [recW 5, recW 3] HW cholIdW cholIdW
        (fun _ => 0) [evec0W, evec1W]).1.map (fun r => r.E)) := by
  have hlist : (CalcCorrelationsFromHamiltonian mW [recW 5, recW 3] HW cholIdW cholIdW
      (fun _ => 0) [evec0W, evec1W]).1.map (fun r => r.E) = [0, 1] := by
    decide
  rw [hlist]
  intro hchain
  exact absurd (List.chain'_cons.mp hchain).1 (by decide)

/-- C4 amended: the output band records are ordered by non-increasing
energy provided each input record's energy agrees with its eigenvector,
i.e. `E_i = Re(v_i† H v_i)` (as holds for genuine eigen-pairs); without
that consistency hypothesis the counterexample above shows the output
order can be increasing. -/
theorem c4_sorted_amended (m : Magdyn) (records : List EnergyAndWeight)
    (H_mat chol_mat g_sign : Matrix (Fin (2 * m.sites.length)) (Fin (2 * m.sites.length)) Cplx)
    (Qvec : Fin 3 → ℚ) (evecs : List (Fin (2 * m.sites.length) → Cplx))
    (hN : m.sites.length ≠ 0)
    (hlen : records.length = 2 * m.sites.length)
    (hE : ∀ i, i < records.length →
      (records.getD i default).E
        = (cdot (evecs.getD i (fun _ => 0))
            (Matrix.mulVec H_mat (evecs.getD i (fun _ => 0)))).re) :
    List.Chain' (fun a b => a ≥ b)
      ((CalcCorrelationsFromHamiltonian m records H_mat chol_mat g_sign Qvec evecs).1.map
        (fun r => r.E)) := by
  rw [CalcCorr_fst_of_ne m records H_mat chol_mat g_sign Qvec evecs hN, map_E_corrAccum]
  have hperm : ∀ i, i ∈ sortPerm records → i < records.length := by
    intro i hi
    have hmem := (List.perm_insertionSort
      (fun i j => (records.getD i default).E ≥ (records.getD j default).E)
      (List.range records.length)).mem_iff.mp hi
    exact List.mem_range.mp hmem
  have hlist : (corrRecords1 (corrEnergyMat records H_mat evecs)).map (fun r => r.E)
      = (sortPerm records).map (fun idx => (records.getD idx default).E) := by
    apply List.ext_getElem
    · simp [corrRecords1, sortPerm_length, hlen]
    · intro k h1 h2
      have hk2 : k < 2 * m.sites.length := by
        simpa [corrRecords1] using h1
      have hk3 : k < (sortPerm records).length := by
        simpa using h2
      have hk4 : k < records.length := by
        rw [hlen]; exact hk2
      rw [List.getElem_map, List.getElem_map]
      have hrec := corrRecords1_getD (corrEnergyMat records H_mat evecs) k hk2
      rw [List.getD_eq_getElem _ _ (by rw [length_corrRecords1]; exact hk2)] at hrec
      rw [hrec]
      show (corrEnergyMat records H_mat evecs ⟨k, hk2⟩ ⟨k, hk2⟩).re = _
      rw [corrEnergyMat_diag]
      have hcol : (reorderEvecs evecs (sortPerm records)).getD k (fun _ => 0)
          = evecs.getD ((sortPerm records).getD k 0) (fun _ => 0) := by
        unfold reorderEvecs
        rw [List.getD_eq_getElem _ _ (by simpa [sortPerm_length, hlen] using hk4),
          List.getElem_map, List.getD_eq_getElem _ _ hk3]
      rw [hcol]
      have hidx : (sortPerm records).getD k 0 < records.length := by
        apply hperm
        rw [List.getD_eq_getElem _ _ hk3]
        exact List.getElem_mem hk3
      rw [← hE ((sortPerm records).getD k 0) hidx]
      rw [List.getD_eq_getElem _ _ hk3]
  rw [hlist]
  haveI hto : IsTotal ℕ (fun i j => (records.getD i default).E ≥ (records.getD j default).E) :=
    ⟨fun a b => le_total (records.getD b default).E (records.getD a default).E⟩
  haveI htr : IsTrans ℕ (fun i j => (records.getD i default).E ≥ (records.getD j default).E) :=
    ⟨fun a b c hab hbc => le_trans hbc hab⟩
  have hsorted : List.Sorted
      (fun i j => (records.getD i default).E ≥ (records.getD j default).E)
      (sortPerm records) :=
    List.sorted_insertionSort _ _
  have hpair := List.Pairwise.map (fun idx => (records.getD idx default).E)
    (fun a b hr => hr) hsorted
  exact hpair.chain'

unseal Rat.mul Rat.add Rat.sub Rat.inv in
theorem c4_witness :
    (mW.sites.length ≠ 0
      ∧ [recW 0, recW 1].length = 2 * mW.sites.length
      ∧ (∀ i, i < [recW 0, recW 1].length →
          ([recW 0, recW 1].getD i default).E
            = (cdot ([evec0W, evec1W].getD i (fun _ => 0))
                (Matrix.mulVec HW ([evec0W, evec1W].getD i (fun _ => 0)))).re))
    ∧ List.Chain' (fun a b => a ≥ b)
      ((CalcCorrelationsFromHamiltonian mW [recW 0, recW 1] HW cholIdW cholIdW
        (fun _ => 0) [evec0W, evec1W]).1.map (fun r => r.E)) :=
  ⟨⟨by decide, by decide, by decide⟩,
    c4_sorted_amended mW [recW 0, recW 1] HW cholIdW cholIdW (fun _ => 0) [evec0W, evec1W]
      (by decide) (by decide) (by decide)⟩

lemma Cplx.conj_sum {ι : Type} (s : Finset ι) (f : ι → Cplx) :
    Cplx.conj (∑ i ∈ s, f i) = ∑ i ∈ s, Cplx.conj (f i) := by
  let h : Cplx →+ Cplx :=
    { toFun := Cplx.conj
      map_zero' := Cplx.conj_zero
      map_add' := Cplx.conj_add }
  exact map_sum h f s

lemma Cplx.re_sum {ι : Type} (s : Finset ι) (f : ι → Cplx) :
    (∑ i ∈ s, f i).re = ∑ i ∈ s, (f i).re := by
  let h : Cplx →+ ℚ :=
    { toFun := Cplx.re
      map_zero' := rfl
      map_add' := fun a b => rfl }
  exact map_sum h f s

lemma Cplx.ofRat_mul (a b : ℚ) : Cplx.ofRat (a * b) = Cplx.ofRat a * Cplx.ofRat b := by
  apply Cplx.ext2 <;> simp

lemma Cplx.ofRat_one_mul (z : Cplx) : Cplx.ofRat 1 * z = z := by
  apply Cplx.ext2 <;> simp

lemma Cplx.ofRat_mul_re (c : ℚ) (z : Cplx) : (Cplx.ofRat c * z).re = c * z.re := by
  simp

lemma Cplx.conj_sub (a b : Cplx) : Cplx.conj (a - b) = Cplx.conj a - Cplx.conj b := by
  apply Cplx.ext2 <;> simp [sub_eq_add_neg]

lemma matScale_matScale {a b : ℕ} (c d : Cplx) (M : Matrix (Fin a) (Fin b) Cplx) :
    matScale c (matScale d M) = matScale (c * d) M := by
  ext i j
  simp [mul_assoc]

lemma matScale_one_left {a b : ℕ} (M : Matrix (Fin a) (Fin b) Cplx) :
    matScale (Cplx.ofRat 1) M = M := by
  ext i j
  simp [Cplx.ofRat_one_mul]

lemma mul_matScale {n : ℕ} (c : Cplx) (X Y : Matrix (Fin n) (Fin n) Cplx) :
    X * matScale c Y = matScale c (X * Y) := by
  ext i j
  simp only [Matrix.mul_apply, matScale_apply, Finset.mul_sum]
  apply Finset.sum_congr rfl
  intro r hr
  ring

lemma matScale_mul {n : ℕ} (c : Cplx) (X Y : Matrix (Fin n) (Fin n) Cplx) :
    matScale c X * Y = matScale c (X * Y) := by
  ext i j
  simp only [Matrix.mul_apply, matScale_apply, Finset.mul_sum]
  apply Finset.sum_congr rfl
  intro r hr
  ring

lemma trace_matScale {n : ℕ} (c : Cplx) (X : Matrix (Fin n) (Fin n) Cplx) :
    Matrix.trace (matScale c X) = c * Matrix.trace X := by
  simp only [Matrix.trace, Matrix.diag, matScale_apply, Finset.mul_sum]

lemma herm_mul {a b c : ℕ} (A : Matrix (Fin a) (Fin b) Cplx) (B : Matrix (Fin b) (Fin c) Cplx) :
    herm (A * B) = herm B * herm A := by
  ext i j
  simp only [herm_apply, Matrix.mul_apply, Cplx.conj_sum, Cplx.conj_mul]
  apply Finset.sum_congr rfl
  intro r hr
  ring

lemma herm_one {n : ℕ} : herm (1 : Matrix (Fin n) (Fin n) Cplx) = 1 := by
  ext i j
  by_cases h : i = j
  · subst h
    simp only [herm_apply, Matrix.one_apply, if_pos rfl]
    apply Cplx.ext2 <;> simp
  · have h2 : ¬(j = i) := fun hc => h hc.symm
    simp [herm, Matrix.one_apply, h, h2]

lemma herm_sub {n : ℕ} (X Y : Matrix (Fin n) (Fin n) Cplx) :
    herm (X - Y) = herm X - herm Y := by
  ext i j
  simp only [herm_apply, Matrix.sub_apply, Cplx.conj_sub]

lemma herm_orthoProjector (Q : Fin 3 → ℚ) :
    herm (orthoProjector Q) = orthoProjector Q := by
  ext i j
  simp only [herm_apply, orthoProjector, Matrix.of_apply]
  apply Cplx.ext2
  · by_cases h : i = j
    · subst h
      simp
    · have h2 : ¬(j = i) := fun hc => h hc.symm
      simp [h, h2]
      ring
  · simp

lemma trace_herm_mul_self_re_nonneg {a b : ℕ} (B : Matrix (Fin a) (Fin b) Cplx) :
    0 ≤ (Matrix.trace (herm B * B)).re := by
  rw [Matrix.trace]
  rw [Cplx.re_sum]
  apply Finset.sum_nonneg
  intro k hk
  show 0 ≤ ((herm B * B) k k).re
  rw [Matrix.mul_apply, Cplx.re_sum]
  apply Finset.sum_nonneg
  intro r hr
  simp only [herm_apply, Cplx.mul_re, Cplx.conj_re, Cplx.conj_im]
  nlinarith [sq_nonneg (B r k).re, sq_nonneg (B r k).im]

lemma orthoProjector_idem (Q : Fin 3 → ℚ) (hq : (∑ k, Q k * Q k) ≠ 0) :
    orthoProjector Q * orthoProjector Q = orthoProjector Q := by
  have hq3 : Q 0 * Q 0 + Q 1 * Q 1 + Q 2 * Q 2 ≠ 0 := by
    simpa [Fin.sum_univ_three] using hq
  ext i j
  simp only [orthoProjector, Matrix.mul_apply, Matrix.of_apply, Fin.sum_univ_three]
  apply Cplx.ext2
  · fin_cases i <;> fin_cases j <;>
      simp only [Cplx.mul_re, Cplx.ofRat_re, Cplx.ofRat_im, Fin.sum_univ_three] <;>
      simp <;>
      field_simp <;>
      ring
  · simp

lemma trace_proj_split (Q : Fin 3 → ℚ) (hq : (∑ k, Q k * Q k) ≠ 0)
    (X : Matrix (Fin 3) (Fin 3) Cplx) :
    Matrix.trace X
      = Matrix.trace (orthoProjector Q * X * orthoProjector Q)
        + Matrix.trace ((1 - orthoProjector Q) * X * (1 - orthoProjector Q)) := by
  have hP := orthoProjector_idem Q hq
  have h1 : (1 - orthoProjector Q) * X * (1 - orthoProjector Q)
      = X - orthoProjector Q * X - X * orthoProjector Q
        + orthoProjector Q * X * orthoProjector Q := by
    noncomm_ring
  have h2 : Matrix.trace (orthoProjector Q * X * orthoProjector Q)
      = Matrix.trace (X * orthoProjector Q) := by
    rw [Matrix.trace_mul_cycle, hP]
    exact Matrix.trace_mul_comm _ _
  rw [h1, Matrix.trace_add, Matrix.trace_sub, Matrix.trace_sub, h2,
    Matrix.trace_mul_comm (orthoProjector Q) X]
  ring

lemma proj_gram (R A : Matrix (Fin 3) (Fin 3) Cplx) (hR : herm R = R) :
    R * (herm A * A) * R = herm (A * R) * (A * R) := by
  rw [herm_mul, hR]
  simp only [Matrix.mul_assoc]

lemma trace_proj_re_bounds (Q : Fin 3 → ℚ) (hq : (∑ k, Q k * Q k) ≠ 0)
    (A : Matrix (Fin 3) (Fin 3) Cplx) :
    0 ≤ (Matrix.trace (orthoProjector Q * (herm A * A) * orthoProjector Q)).re
    ∧ (Matrix.trace (orthoProjector Q * (herm A * A) * orthoProjector Q)).re
      ≤ (Matrix.trace (herm A * A)).re := by
  have hPh := herm_orthoProjector Q
  have hP2h : herm (1 - orthoProjector Q) = 1 - orthoProjector Q := by
    rw [herm_sub, herm_one, hPh]
  have h1 : 0 ≤ (Matrix.trace (orthoProjector Q * (herm A * A) * orthoProjector Q)).re := by
    rw [proj_gram _ A hPh]
    exact trace_herm_mul_self_re_nonneg _
  have h2 : 0 ≤ (Matrix.trace ((1 - orthoProjector Q) * (herm A * A)
      * (1 - orthoProjector Q))).re := by
    rw [proj_gram _ A hP2h]
    exact trace_herm_mul_self_re_nonneg _
  have h3 := congrArg Cplx.re (trace_proj_split Q hq (herm A * A))
  rw [Cplx.add_re] at h3
  exact ⟨h1, by linarith⟩

lemma weight_core (Q : Fin 3 → ℚ) (hq : (∑ k, Q k * Q k) ≠ 0)
    (A : Matrix (Fin 3) (Fin 3) Cplx) (c : ℚ) :
    |(Matrix.trace (orthoProjector Q * matScale (Cplx.ofRat c) (herm A * A)
        * orthoProjector Q)).re|
      ≤ |(Matrix.trace (matScale (Cplx.ofRat c) (herm A * A))).re| := by
  rw [mul_matScale, matScale_mul, trace_matScale, trace_matScale,
    Cplx.ofRat_mul_re, Cplx.ofRat_mul_re]
  obtain ⟨h1, h2⟩ := trace_proj_re_bounds Q hq A
  have h0 : 0 ≤ (Matrix.trace (herm A * A)).re := trace_herm_mul_self_re_nonneg A
  rw [abs_mul, abs_mul]
  refine mul_le_mul_of_nonneg_left ?_ (abs_nonneg c)
  rw [abs_of_nonneg h1, abs_of_nonneg h0]
  exact h2

lemma steps_scale (m : Magdyn) (Q_rlu : Fin 3 → ℚ) (E : ℚ)
    (S : Matrix (Fin 3) (Fin 3) Cplx) :
    ∃ c : ℚ, ffactStep m Q_rlu (boseStep m E S) = matScale (Cplx.ofRat c) S := by
  unfold ffactStep boseStep
  by_cases ht : m.temperature ≥ 0 <;> by_cases hf : m.magffact_formula ≠ ""
  · exact ⟨(m.evalFF m.magffact_formula (ffQabs m Q_rlu)).re * m.bose E m.temperature
        m.bose_cutoff,
      by rw [if_pos ht, if_pos hf, matScale_matScale, ← Cplx.ofRat_mul]⟩
  · exact ⟨m.bose E m.temperature m.bose_cutoff, by rw [if_pos ht, if_neg hf]⟩
  · exact ⟨(m.evalFF m.magffact_formula (ffQabs m Q_rlu)).re,
      by rw [if_neg ht, if_pos hf]⟩
  · exact ⟨1, by rw [if_neg ht, if_neg hf, matScale_one_left]⟩

/-- Hermitian but indefinite tensor fixture `diag(0, -1, 1)`. -/
def SW : Matrix (Fin 3) (Fin 3) Cplx :=
  Matrix.of fun i j =>
    if i = j then (if i.1 = 1 then -1 else if i.1 = 2 then 1 else 0) else 0

/-- A band record carrying `SW`. -/
def recS : EnergyAndWeight :=
  { E := 1, S := SW, S_perp := 0, S_sum := 0, S_perp_sum := 0, weight_full := 0, weight := 0 }

/-- Momentum fixture along the third axis. -/
def QzW : Fin 3 → ℚ := fun k => if k.1 = 2 then 1 else 0

unseal Rat.mul Rat.add Rat.sub Rat.inv in
/-- C6 as stated is false: for the Hermitian (but indefinite) tensor
`S = diag(0, -1, 1)` at `Q = (0, 0, 1)` the projected weight is `1`
while `weight_full = |Re(trace S)| = 0`, so `weight > weight_full`. -/
theorem c6_claim_counterexample :
    herm SW = SW
    ∧ ¬ (((CalcIntensities mW QzW [recS]).getD 0 default).weight
        ≤ ((CalcIntensities mW QzW [recS]).getD 0 default).weight_full) := by
  constructor
  · decide
  · decide

/-- C6 amended: for every band whose correlation tensor is positive
semidefinite Hermitian — written as a Gram matrix `S = A† A`, the general
form of such tensors — the projected weight never exceeds `weight_full`;
for merely Hermitian indefinite tensors the bound fails, as the
counterexample shows. -/
theorem c6_weight_le_full_psd (m : Magdyn) (Q_rlu : Fin 3 → ℚ)
    (recs : List EnergyAndWeight) (k : ℕ) (A : Matrix (Fin 3) (Fin 3) Cplx)
    (hq : (∑ i, Q_rlu i * Q_rlu i) ≠ 0)
    (hk : k < recs.length)
    (hS : (recs.getD k default).S = herm A * A) :
    ((CalcIntensities m Q_rlu recs).getD k default).weight
      ≤ ((CalcIntensities m Q_rlu recs).getD k default).weight_full := by
  rw [CalcIntensities_getD m Q_rlu recs k hk]
  show |(Matrix.trace (orthoProjector Q_rlu
      * ffactStep m Q_rlu (boseStep m (recs.getD k default).E (recs.getD k default).S)
      * orthoProjector Q_rlu)).re|
    ≤ |(Matrix.trace (ffactStep m Q_rlu
        (boseStep m (recs.getD k default).E (recs.getD k default).S))).re|
  rw [hS]
  obtain ⟨c, hc⟩ := steps_scale m Q_rlu (recs.getD k default).E (herm A * A)
  rw [hc]
  exact weight_core Q_rlu hq A c

/-- Positive semidefinite Gram-factor fixture. -/
def AW : Matrix (Fin 3) (Fin 3) Cplx :=
  Matrix.of fun i j => if i = j ∧ i.1 = 0 then 1 else 0

/-- A band record carrying the Gram matrix `AW† AW`. -/
def recG : EnergyAndWeight :=
  { E := 1, S := herm AW * AW, S_perp := 0, S_sum := 0, S_perp_sum := 0,
    weight_full := 0, weight := 0 }

unseal Rat.mul Rat.add Rat.sub Rat.inv in
theorem c6_witness :
    ((∑ i, QzW i * QzW i) ≠ 0 ∧ (0 : ℕ) < 1
      ∧ ([recG].getD 0 default).S = herm AW * AW)
    ∧ ((CalcIntensities mW QzW [recG]).getD 0 default).weight
      ≤ ((CalcIntensities mW QzW [recG]).getD 0 default).weight_full :=
  ⟨⟨by decide, by decide, by decide⟩,
    c6_weight_le_full_psd mW QzW [recG] 0 AW (by decide) (by decide) (by decide)⟩
